import Mathlib

/-!
Shallow embedding of `qiskit/primitives/backend_estimator_v2.py`.

Conventions:
* Python floats are modelled by exact rationals (`ℚ`); Python complex numbers
  by pairs of rationals (`PyComplex`).  The floating-point square root has no
  exact rational counterpart, so functions that call it (`variance ** 0.5`,
  `np.abs(coeff)`, `np.sqrt(shots)`) take the square-root routine as an
  explicit parameter `sq : ℚ → ℚ`.
* The NaN produced by numpy's float division `expvals /= denom` when
  `denom = 0` is modelled by `none : Option ℚ`; a finite float value `v` is
  `some v`.
* Python exceptions are modelled by `Except String`.
* Count-histogram keys (bitstrings, possibly with register-separating spaces)
  are modelled as `List Char`.
-/

namespace BackendEstimatorV2

/-- Structural equality test for `Except`, so that results of the embedded
fallible functions can be compared by `decide`. -/
instance exceptDecidableEq {ε α : Type} [DecidableEq ε] [DecidableEq α] :
    DecidableEq (Except ε α) := fun x y =>
  match x, y with
  | .error e, .error f =>
      if h : e = f then isTrue (congrArg Except.error h)
      else isFalse fun hx => h (Except.error.inj hx)
  | .error _, .ok _ => isFalse fun hx => Except.noConfusion hx
  | .ok _, .error _ => isFalse fun hx => Except.noConfusion hx
  | .ok a, .ok b =>
      if h : a = b then isTrue (congrArg Except.ok h)
      else isFalse fun hx => h (Except.ok.inj hx)

/-- Binary digit sum by repeated halving, with structural fuel so that the
definition reduces by iota alone. -/
def popcountFuel : ℕ → ℕ → ℕ
  | 0, _ => 0
  | fuel + 1, n => if n = 0 then 0 else n % 2 + popcountFuel fuel (n / 2)

/-- Number of 1-bits of a natural number; `bin(integer).count("1")`.  Fuel
`n` suffices because the argument at least halves at every step. -/
def popcount (n : ℕ) : ℕ := popcountFuel n n

/-- `_parity`: `bin(integer).count("1") % 2`. -/
def parity (n : ℕ) : ℕ := popcount n % 2

/-- One binary digit, as accepted by `int(s, 2)` on histogram keys. -/
def binDigit : Char → Option ℕ
  | '0' => some 0
  | '1' => some 1
  | _ => none

/-- `int(s, 2)` restricted to the plain binary strings that occur as
count-histogram keys: `none` models the `ValueError` raised on an empty or
non-binary string. -/
def parseBin (cs : List Char) : Option ℕ :=
  if cs.isEmpty then none
  else cs.foldl (fun acc c => do
    let a ← acc
    let d ← binDigit c
    pure (a * 2 + d)) (some 0)

/-- `bin_outcome.split(" ", 1)[0] if " " in bin_outcome else bin_outcome`. -/
def splitOutcome (b : List Char) : List Char :=
  if b.contains ' ' then b.takeWhile (fun c => c != ' ') else b

/-- The integer outcome the estimator derives from a histogram key:
`int(split_outcome, 2)`. -/
def outcomeOf (b : List Char) : Option ℕ := parseBin (splitOutcome b)

/-- `_paulis2inds` for a single Pauli, given its `z` and `x` bit vectors:
the little-endian packed integer with a 1 bit exactly where the Pauli is
non-identity (`nonid = paulis.z | paulis.x`). -/
def pauliInd (z x : List Bool) : ℕ :=
  ((List.range z.length).map
    (fun i => if z.getD i false || x.getD i false then 2 ^ i else 0)).sum

/-- `_paulis2inds` over a Pauli list, each Pauli given as its `(z, x)` pair. -/
def paulis2inds (paulis : List (List Bool × List Bool)) : List ℕ :=
  paulis.map fun zx => pauliInd zx.1 zx.2

/-- Total frequency of a histogram (the `denom` accumulated by the loop in
`_pauli_expval_with_variance`). -/
def countsTotal (counts : List (List Char × ℕ)) : ℕ :=
  (counts.map Prod.snd).sum

/-- The main loop of `_pauli_expval_with_variance`, carried state made
explicit: one pass over the count histogram accumulating `denom` and, for
each Pauli index `k`, the signed sum
`expvals[k] += freq * (-1) ** _parity(diag_inds[k] & outcome)`.  The `.error`
branch models the `ValueError` raised by `int(split_outcome, 2)`. -/
def expvalAccumFrom (inds : List ℕ) (denom : ℕ) (evs : ℕ → ℤ) :
    List (List Char × ℕ) → Except String (ℕ × (ℕ → ℤ))
  | [] => .ok (denom, evs)
  | bf :: rest =>
      match outcomeOf bf.1 with
      | none => .error "invalid literal for int with base 2"
      | some outcome =>
          expvalAccumFrom inds (denom + bf.2)
            (fun k => evs k + (bf.2 : ℤ) * (-1) ^ parity ((inds.getD k 0) &&& outcome))
            rest

/-- The loop of `_pauli_expval_with_variance` started on the zero state
(`denom = 0`, `expvals = np.zeros(size)`). -/
def expvalAccum (inds : List ℕ) (counts : List (List Char × ℕ)) :
    Except String (ℕ × (ℕ → ℤ)) :=
  expvalAccumFrom inds 0 (fun _ => 0) counts

/-- `_pauli_expval_with_variance`: per-Pauli expectation values and
variances from one count histogram.  `expvals /= denom` with `denom = 0` is
numpy float division producing NaN (modelled `none`), not an exception;
`variances = 1 - expvals ** 2` propagates the NaN. -/
def pauliExpvalWithVariance (counts : List (List Char × ℕ))
    (paulis : List (List Bool × List Bool)) :
    Except String (List (Option ℚ) × List (Option ℚ)) :=
  match expvalAccum (paulis2inds paulis) counts with
  | .error e => .error e
  | .ok de =>
      let expvals := (List.range paulis.length).map fun k =>
        if de.1 = 0 then none else some ((de.2 k : ℚ) / (de.1 : ℚ))
      .ok (expvals, expvals.map (Option.map fun e => 1 - e ^ 2))

/-- Spec-side signed sum `Σ_b f_b · (-1)^popcount(m & b)` for mask `m`,
reading each key through the same space-splitting binary parse as the code. -/
def signedSum (counts : List (List Char × ℕ)) (m : ℕ) : ℤ :=
  (counts.map fun bf => (bf.2 : ℤ) * (-1) ^ popcount (m &&& ((outcomeOf bf.1).getD 0))).sum

/-- The slice of an `EstimatorPub` that the shot computation and the
validation in `run` inspect.  The circuit, observables and parameter values
of a pub are handled by the separate preprocessing/postprocessing model
below. -/
structure Pub where
  precision : ℚ
deriving DecidableEq

/-- Shot count derived from a pub's precision in `_run`:
`int(math.ceil(1.0 / pub.precision ** 2))`. -/
def shotsOf (precision : ℚ) : ℤ :=
  Int.ceil (1 / precision ^ 2)

/-- One `pub_dict[shots].append(i)` step on an insertion-ordered association
list, the model of Python's `defaultdict(list)`. -/
def addToDict (d : List (ℤ × List ℕ)) (k : ℤ) (i : ℕ) : List (ℤ × List ℕ) :=
  match d with
  | [] => [(k, [i])]
  | (k', l) :: rest =>
      if k' = k then (k', l ++ [i]) :: rest else (k', l) :: addToDict rest k i

/-- The consolidation loop of `_run`: `for i, pub in enumerate(pubs):
pub_dict[shots].append(i)`, starting from pub index `i`. -/
def pubDictFrom (pubs : List Pub) (i : ℕ) (d : List (ℤ × List ℕ)) :
    List (ℤ × List ℕ) :=
  match pubs with
  | [] => d
  | p :: rest => pubDictFrom rest (i + 1) (addToDict d (shotsOf p.precision) i)

/-- The grouping of pub indices by shot count built by `_run`; each entry
`(shots, indices)` is executed by one `_run_pubs` call with that `shots`. -/
def pubDict (pubs : List Pub) : List (ℤ × List ℕ) :=
  pubDictFrom pubs 0 []

/-- `_validate_pubs` from the `i`-th pub on: raise `ValueError` at the first
pub whose precision is `<= 0.0`. -/
def validatePubsFrom (i : ℕ) : List Pub → Except String Unit
  | [] => .ok ()
  | p :: rest =>
      if p.precision ≤ 0 then
        .error "pub has precision less than or equal to 0"
      else validatePubsFrom (i + 1) rest

/-- `_validate_pubs`. -/
def validatePubs (pubs : List Pub) : Except String Unit :=
  validatePubsFrom 0 pubs

/-- `run`: validation happens first; only when it passes is the job holding
`_run` submitted.  The success value is the shot-count batching that `_run`
executes, so an `.error` result means no execution takes place. -/
def run (pubs : List Pub) : Except String (List (ℤ × List ℕ)) :=
  match validatePubs pubs with
  | .error e => .error e
  | .ok _ => .ok (pubDict pubs)

/-- Broadcasting of one aligned dimension pair, per numpy's rule: equal
sizes broadcast, and a size-1 dimension stretches to the other size. -/
def broadcastDim (a b : ℕ) : Option ℕ :=
  if a = b then some a
  else if a = 1 then some b
  else if b = 1 then some a
  else none

/-- Broadcasting of reversed shape lists (so that alignment is at the
trailing dimensions); a missing leading dimension behaves as size 1. -/
def broadcastDimsRev : List ℕ → List ℕ → Option (List ℕ)
  | [], t => some t
  | s, [] => some s
  | a :: s, b :: t => do
      let d ← broadcastDim a b
      let rest ← broadcastDimsRev s t
      pure (d :: rest)

/-- The shape computed by `np.broadcast_arrays(param_indices, observables)`
in `_preprocess_pub`; `none` models the `ValueError` on incompatible
shapes. -/
def broadcastShape (s t : List ℕ) : Option (List ℕ) :=
  (broadcastDimsRev s.reverse t.reverse).map List.reverse

/-- `np.ndindex(*shape)` in row-major order. -/
def indicesOf : List ℕ → List (List ℕ)
  | [] => [[]]
  | d :: rest => (List.range d).flatMap fun i => (indicesOf rest).map (i :: ·)

/-- The index into an array of shape `origShape` that a broadcast view reads
at multi-index `idx`: leading extra dimensions are dropped and size-1
dimensions are pinned to 0. -/
def bcIndex (origShape : List ℕ) (idx : List ℕ) : List ℕ :=
  (origShape.zip (idx.drop (idx.length - origShape.length))).map
    fun di => if di.1 = 1 then 0 else di.2

/-- A Python complex number: a pair of floats, modelled exactly. -/
structure PyComplex where
  re : ℚ
  im : ℚ
deriving DecidableEq

/-- Modelled from the spec: `OperatorSum` (§3, the observable dictionaries of
`qiskit.primitives.containers`, which are outside `src/`) maps operator
labels to complex coefficients; modelled as an association list of
`(label, coefficient)` pairs, iterated in order by `.items()`. -/
structure OperatorSum where
  terms : List (List Char × PyComplex)
deriving DecidableEq

/-- The accumulation `evs[index] += expval * coeff` performed on the array
created by `np.zeros_like(bc_param_ind, dtype=float)`: storing the complex
sum into a float64 slot keeps only its real part (numpy `ComplexWarning`
semantics), so each step adds `expval * coeff.real`. -/
def accumEvs (terms : List (List Char × PyComplex)) (ev : List Char → ℚ) : ℚ :=
  terms.foldl (fun acc pc => acc + ev pc.1 * pc.2.re) 0

/-- The accumulation `variances[index] += np.abs(coeff) * variance ** 0.5`,
with `np.abs(coeff) = sqrt(re² + im²)` and both square roots taken by the
explicit float square-root routine `sq`. -/
def accumErr (sq : ℚ → ℚ) (terms : List (List Char × PyComplex))
    (var : List Char → ℚ) : ℚ :=
  terms.foldl (fun acc pc => acc + sq (pc.2.re ^ 2 + pc.2.im ^ 2) * sq (var pc.1)) 0

/-- The arrays a `_postprocess_pub` call produces: the broadcast shape, the
flattened (row-major) `evs` array, the error accumulator (called
`variances` in the code), and `stds = variances / np.sqrt(shots)`. -/
structure PostOutcome where
  shape : List ℕ
  evs : List ℚ
  errAccum : List ℚ
  stds : List ℚ
deriving DecidableEq

/-- `_postprocess_pub` (with the broadcast bookkeeping of
`_preprocess_pub`): `obsGet` reads the pub's observable array at an
original-shape index, and `expvalMap` is the `(expval, variance)` table
keyed by parameter-binding index and Pauli label built by
`_calc_expval_map`. -/
def postprocessPub (sq : ℚ → ℚ) (paramShape obsShape : List ℕ)
    (obsGet : List ℕ → OperatorSum) (expvalMap : List ℕ → List Char → ℚ × ℚ)
    (shots : ℕ) : Option PostOutcome :=
  match broadcastShape paramShape obsShape with
  | none => none
  | some s =>
      let idxs := indicesOf s
      let evs := idxs.map fun idx =>
        accumEvs (obsGet (bcIndex obsShape idx)).terms
          (fun p => (expvalMap (bcIndex paramShape idx) p).1)
      let errs := idxs.map fun idx =>
        accumErr sq (obsGet (bcIndex obsShape idx)).terms
          (fun p => (expvalMap (bcIndex paramShape idx) p).2)
      some ⟨s, evs, errs, errs.map (· / sq (shots : ℚ))⟩

/-- The accumulation exactly as claim C2/C6 state it: `evs[index] +=
coeff * expectation` carried out in complex arithmetic, the imaginary part
retained.  Used only to compare against `accumEvs`, the accumulation the
code performs. -/
def accumEvsSpec (terms : List (List Char × PyComplex)) (ev : List Char → ℚ) :
    PyComplex :=
  terms.foldl
    (fun acc pc => ⟨acc.re + ev pc.1 * pc.2.re, acc.im + ev pc.1 * pc.2.im⟩)
    ⟨0, 0⟩

/-- `np.arange(pauli.num_qubits)[pauli.z | pauli.x]` followed by the
`if not np.any(qubit_indices): qubit_indices = [0]` fallback of
`_measurement_circuit`.  `np.any` on an integer index array asks whether any
entry is non-zero, so the fallback fires when the filtered index list is
empty or contains only index 0. -/
def measuredIndices (z x : List Bool) : List ℕ :=
  let qubitIndices := (List.range z.length).filter fun i => z.getD i false || x.getD i false
  if qubitIndices.all (fun i => i == 0) then [0] else qubitIndices

/-- The `(qubit, clbit)` pairs measured by the circuit built in
`_measurement_circuit`: `for clbit, i in enumerate(qubit_indices):
meas_circuit.measure(i, clbit)`. -/
def measureOps (z x : List Bool) : List (ℕ × ℕ) :=
  (measuredIndices z x).enum.map fun ci => (ci.2, ci.1)

/-- The character of a Pauli label at one site, from its `(z, x)` bits. -/
def pauliChar (z x : Bool) : Char :=
  if x then (if z then 'Y' else 'X') else (if z then 'Z' else 'I')

/-- `str(pauli)` for a phase-free Pauli: site characters listed with the
highest qubit first. -/
def pauliLabel (z x : List Bool) : List Char :=
  ((z.zip x).map fun b => pauliChar b.1 b.2).reverse

/-- The classical-register name `f"__c_{pauli}"` synthesized by
`_measurement_circuit`. -/
def measCregName (z x : List Bool) : List Char :=
  '_' :: '_' :: 'c' :: '_' :: pauliLabel z x

/-- The result of composing one measurement circuit onto a copy of the
caller's circuit in `_create_measurement_circuits`: the copy's classical
registers with the measurement register appended by `add_register`, plus
the register the measurement results were composed onto. -/
structure CombinedCircuit where
  cregNames : List (List Char)
  measName : List Char
deriving DecidableEq

/-- The per-measurement-circuit body of the combination loop in
`_create_measurement_circuits` (lines 494-509): raise `QiskitError` when the
measurement register's name collides with a classical register of the
caller's circuit, otherwise add the register to a copy and compose. -/
def combineOne (circCregNames : List (List Char)) (measName : List Char) :
    Except String CombinedCircuit :=
  if measName ∈ circCregNames then
    .error "Classical register for measurements conflict with those of the input circuit"
  else .ok ⟨circCregNames ++ [measName], measName⟩

/-- The combination loop over all measurement circuits of one parameter
binding; a raised `QiskitError` aborts the loop (no retry). -/
def combineAll (circCregNames : List (List Char)) :
    List (List Char) → Except String (List CombinedCircuit)
  | [] => .ok []
  | m :: rest =>
      match combineOne circCregNames m with
      | .error e => .error e
      | .ok c =>
          match combineAll circCregNames rest with
          | .error e => .error e
          | .ok cs => .ok (c :: cs)

/-! ## Helper lemmas -/

theorem neg_one_pow_parity (n : ℕ) : ((-1 : ℤ)) ^ parity n = (-1) ^ popcount n := by
  unfold parity
  rcases Nat.even_or_odd (popcount n) with h | h
  · rw [Nat.even_iff.mp h, pow_zero, Even.neg_one_pow h]
  · rw [Nat.odd_iff.mp h, pow_one, Odd.neg_one_pow h]

theorem filter_nonid_nil {z x : List Bool}
    (h : ∀ i ∈ List.range z.length, (z.getD i false || x.getD i false) = false) :
    (List.range z.length).filter (fun i => z.getD i false || x.getD i false) = [] := by
  rw [List.filter_eq_nil_iff]
  intro a ha
  rw [h a ha]
  simp

/-! ## C8: all-identity operators measure exactly site 0 -/

/-- C8: for an operator with no non-identity site, `_measurement_circuit`
falls back to `qubit_indices = [0]`, so the generated circuit measures
exactly one site, site 0 (classical bit 0). -/
theorem c8_all_identity_measures_site_zero (z x : List Bool)
    (h : ∀ i ∈ List.range z.length, (z.getD i false || x.getD i false) = false) :
    measuredIndices z x = [0] ∧ measureOps z x = [(0, 0)] := by
  have h1 : measuredIndices z x = [0] := by
    simp only [measuredIndices, filter_nonid_nil h]
    rfl
  refine ⟨h1, ?_⟩
  simp only [measureOps, h1]
  rfl

theorem c8_all_identity_measures_site_zero_witness :
    measuredIndices [false, false] [false, false] = [0] ∧
      measureOps [false, false] [false, false] = [(0, 0)] :=
  c8_all_identity_measures_site_zero [false, false] [false, false] (by decide)

/-! ## C9: classical-register name conflicts -/

theorem combineAll_characterization (cregs : List (List Char)) :
    ∀ names : List (List Char),
      ((∃ m ∈ names, m ∈ cregs) → combineAll cregs names =
        .error "Classical register for measurements conflict with those of the input circuit") ∧
      ((∀ m ∈ names, m ∉ cregs) →
        combineAll cregs names = .ok (names.map fun m => ⟨cregs ++ [m], m⟩)) := by
  intro names
  induction names with
  | nil =>
      refine ⟨fun h => absurd h (by simp), fun _ => rfl⟩
  | cons m rest ih =>
      constructor
      · rintro ⟨m', hm', hin⟩
        by_cases hm : m ∈ cregs
        · simp [combineAll, combineOne, hm]
        · rcases List.mem_cons.mp hm' with rfl | hm''
          · exact absurd hin hm
          · simp [combineAll, combineOne, hm, ih.1 ⟨m', hm'', hin⟩]
      · intro hall
        have hm : m ∉ cregs := hall m (by simp)
        have hrest := ih.2 (fun m' hm' => hall m' (by simp [hm']))
        simp [combineAll, combineOne, hm, hrest]

/-- C9: if the classical-register name `__c_{pauli}` synthesized for a
measurement circuit collides with a register name already in the caller's
circuit, `_create_measurement_circuits` raises `QiskitError` (and the loop
aborts, no retry); otherwise every measurement circuit is composed onto a
copy of the caller's circuit, whose register list gains exactly the new
measurement register. -/
theorem c9_creg_name_conflict (cregs : List (List Char))
    (variants : List (List Bool × List Bool)) :
    ((∃ v ∈ variants, measCregName v.1 v.2 ∈ cregs) →
      combineAll cregs (variants.map fun v => measCregName v.1 v.2) =
        .error "Classical register for measurements conflict with those of the input circuit") ∧
    ((∀ v ∈ variants, measCregName v.1 v.2 ∉ cregs) →
      combineAll cregs (variants.map fun v => measCregName v.1 v.2) =
        .ok (variants.map fun v => ⟨cregs ++ [measCregName v.1 v.2], measCregName v.1 v.2⟩)) := by
  have hchar := combineAll_characterization cregs (variants.map fun v => measCregName v.1 v.2)
  constructor
  · intro ⟨v, hv, hin⟩
    exact hchar.1 ⟨measCregName v.1 v.2, List.mem_map_of_mem _ hv, hin⟩
  · intro hall
    have := hchar.2 (by
      intro m hm
      obtain ⟨v, hv, rfl⟩ := List.mem_map.mp hm
      exact hall v hv)
    rw [this, List.map_map]
    rfl

theorem c9_creg_name_conflict_witness :
    combineAll [[ '_', '_', 'c', '_', 'Z' ], [ 'a' ]]
        ([([true], [false])].map fun v => measCregName v.1 v.2) =
      .error "Classical register for measurements conflict with those of the input circuit" :=
  (c9_creg_name_conflict [[ '_', '_', 'c', '_', 'Z' ], [ 'a' ]] [([true], [false])]).1
    ⟨([true], [false]), by decide, by decide⟩

/-! ## C5: non-positive precision is rejected before execution -/

theorem validatePubsFrom_error (i : ℕ) (pubs : List Pub)
    (h : ∃ p ∈ pubs, p.precision ≤ 0) :
    validatePubsFrom i pubs = .error "pub has precision less than or equal to 0" := by
  induction pubs generalizing i with
  | nil => obtain ⟨p, hp, _⟩ := h; exact absurd hp (by simp)
  | cons q rest ih =>
      by_cases hq : q.precision ≤ 0
      · simp [validatePubsFrom, hq]
      · obtain ⟨p, hp, hle⟩ := h
        rcases List.mem_cons.mp hp with rfl | hp'
        · exact absurd hle hq
        · simp [validatePubsFrom, hq, ih (i + 1) ⟨p, hp', hle⟩]

/-- C5: if any pub in a submission has precision `<= 0`, `run` raises the
`ValueError` from `_validate_pubs` before the job is submitted, so no pub of
the submission is executed (no `.ok` batching is ever produced). -/
theorem c5_nonpositive_precision_rejected (pubs : List Pub)
    (h : ∃ p ∈ pubs, p.precision ≤ 0) :
    run pubs = .error "pub has precision less than or equal to 0" ∧
      ∀ batches, run pubs ≠ .ok batches := by
  have hv := validatePubsFrom_error 0 pubs h
  have hrun : run pubs = .error "pub has precision less than or equal to 0" := by
    simp [run, validatePubs, hv]
  exact ⟨hrun, fun batches hok => by rw [hrun] at hok; cases hok⟩

theorem c5_nonpositive_precision_rejected_witness :
    run [(⟨1/10⟩ : Pub), ⟨0⟩] = .error "pub has precision less than or equal to 0" :=
  (c5_nonpositive_precision_rejected [⟨1/10⟩, ⟨0⟩]
    ⟨⟨0⟩, List.mem_cons_of_mem _ (List.mem_singleton.mpr rfl), le_refl 0⟩).1

/-! ## C4: shots = ceil(1 / precision^2) -/

theorem addToDict_mem {f : ℕ → ℤ} {k : ℤ} {j : ℕ} (hk : f j = k) :
    ∀ (d : List (ℤ × List ℕ)),
      (∀ sl ∈ d, ∀ i ∈ sl.2, f i = sl.1) →
      ∀ sl ∈ addToDict d k j, ∀ i ∈ sl.2, f i = sl.1 := by
  intro d
  induction d with
  | nil =>
      intro _ sl hsl i hi
      simp only [addToDict, List.mem_singleton] at hsl
      subst hsl
      simp only [List.mem_singleton] at hi
      subst hi
      exact hk
  | cons kl rest ih =>
      obtain ⟨k', l⟩ := kl
      intro hd sl hsl i hi
      by_cases hkk : k' = k
      · simp only [addToDict, if_pos hkk] at hsl
        rcases List.mem_cons.mp hsl with rfl | hsl'
        · rcases List.mem_append.mp hi with hil | hij
          · exact hd (k', l) (List.mem_cons_self _ _) i hil
          · rcases List.mem_singleton.mp hij with rfl
            exact hk.trans hkk.symm
        · exact hd sl (List.mem_cons_of_mem _ hsl') i hi
      · simp only [addToDict, if_neg hkk] at hsl
        rcases List.mem_cons.mp hsl with rfl | hsl'
        · exact hd (k', l) (List.mem_cons_self _ _) i hi
        · exact ih (fun sl'' hsl'' => hd sl'' (List.mem_cons_of_mem _ hsl'')) sl hsl' i hi

theorem pubDictFrom_mem {f : ℕ → ℤ} :
    ∀ (pubs : List Pub) (i0 : ℕ) (d : List (ℤ × List ℕ)),
      (∀ sl ∈ d, ∀ i ∈ sl.2, f i = sl.1) →
      (∀ m, m < pubs.length → f (i0 + m) = shotsOf ((pubs.getD m ⟨1⟩).precision)) →
      ∀ sl ∈ pubDictFrom pubs i0 d, ∀ i ∈ sl.2, f i = sl.1 := by
  intro pubs
  induction pubs with
  | nil =>
      intro i0 d hd _ sl hsl
      exact hd sl (by simpa [pubDictFrom] using hsl)
  | cons p rest ih =>
      intro i0 d hd hp sl hsl
      have h0 : f i0 = shotsOf p.precision := by
        have h00 := hp 0 (by simp)
        simpa using h00
      refine ih (i0 + 1) (addToDict d (shotsOf p.precision) i0)
        (addToDict_mem h0 d hd) ?_ sl (by simpa [pubDictFrom] using hsl)
      intro m hm
      have h2 := hp (m + 1) (by simpa using Nat.succ_lt_succ hm)
      rw [List.getD_cons_succ] at h2
      have harith : i0 + (m + 1) = i0 + 1 + m := by omega
      rwa [harith] at h2

/-- C4: every pub is executed with `shots = ceil(1 / precision^2)`: whenever
`_run` places pub index `i` into the batch keyed by shot count `s`, that `s`
is `ceil(1 / precision_i^2)`; in particular precision 0.015625 gives 4096
shots, precision 0.1 gives 100 shots, and precision 0.0625 gives 256
shots. -/
theorem c4_shots_ceil_inverse_precision_sq (pubs : List Pub) (s : ℤ) (l : List ℕ) (i : ℕ)
    (hmem : (s, l) ∈ pubDict pubs) (hi : i ∈ l) :
    s = shotsOf ((pubs.getD i ⟨1⟩).precision) ∧
      shotsOf (1/64) = 4096 ∧ shotsOf (1/10) = 100 ∧ shotsOf (625/10000) = 256 := by
  have hmain :=
    pubDictFrom_mem (f := fun j => shotsOf ((pubs.getD j ⟨1⟩).precision)) pubs 0 []
      (by simp) (by intro m hm; simp) (s, l) (by simpa [pubDict] using hmem) i hi
  refine ⟨hmain.symm, ?_, ?_, ?_⟩
  · rw [shotsOf, show (1 / (1/64 : ℚ)^2) = ((4096 : ℤ) : ℚ) by norm_num, Int.ceil_intCast]
  · rw [shotsOf, show (1 / (1/10 : ℚ)^2) = ((100 : ℤ) : ℚ) by norm_num, Int.ceil_intCast]
  · rw [shotsOf, show (1 / (625/10000 : ℚ)^2) = ((256 : ℤ) : ℚ) by norm_num, Int.ceil_intCast]

theorem c4_shots_ceil_inverse_precision_sq_witness :
    (100 : ℤ) = shotsOf (([(⟨1/10⟩ : Pub)].getD 0 ⟨1⟩).precision) ∧
      shotsOf (1/64) = 4096 ∧ shotsOf (1/10) = 100 ∧ shotsOf (625/10000) = 256 := by
  have h100 : shotsOf (1/10 : ℚ) = 100 := by
    rw [shotsOf, show (1 / (1/10 : ℚ)^2) = ((100 : ℤ) : ℚ) by norm_num, Int.ceil_intCast]
  exact c4_shots_ceil_inverse_precision_sq [⟨1/10⟩] 100 [0] 0
    (by
      rw [show pubDict [(⟨1/10⟩ : Pub)] = [(shotsOf (1/10), [0])] from rfl, h100]
      exact List.mem_singleton.mpr rfl)
    (List.mem_singleton.mpr rfl)

/-! ## The estimator loop: characterization -/

theorem expvalAccumFrom_eq (inds : List ℕ) :
    ∀ (counts : List (List Char × ℕ)) (d0 : ℕ) (e0 : ℕ → ℤ),
      (∀ bf ∈ counts, (outcomeOf bf.1).isSome) →
      expvalAccumFrom inds d0 e0 counts =
        .ok (d0 + countsTotal counts,
             fun k => e0 k + signedSum counts (inds.getD k 0)) := by
  intro counts
  induction counts with
  | nil =>
      intro d0 e0 _
      simp [expvalAccumFrom, countsTotal, signedSum]
  | cons bf rest ih =>
      intro d0 e0 hparse
      obtain ⟨o, ho⟩ := Option.isSome_iff_exists.mp (hparse bf (List.mem_cons_self _ _))
      have hstep : expvalAccumFrom inds d0 e0 (bf :: rest) =
          expvalAccumFrom inds (d0 + bf.2)
            (fun k => e0 k + (bf.2 : ℤ) * (-1) ^ parity ((inds.getD k 0) &&& o)) rest := by
        simp [expvalAccumFrom, ho]
      rw [hstep, ih _ _ (fun bf' h' => hparse bf' (List.mem_cons_of_mem _ h'))]
      refine congrArg Except.ok (Prod.ext ?_ ?_)
      · simp [countsTotal, Nat.add_assoc]
      · funext k
        simp only [signedSum, List.map_cons, List.sum_cons, ho, Option.getD_some,
          neg_one_pow_parity]
        ring

theorem range_map_getD {α β : Type} (l : List α) (d : α) (g : α → β) :
    (List.range l.length).map (fun k => g (l.getD k d)) = l.map g := by
  induction l with
  | nil => rfl
  | cons a t ih =>
      rw [List.length_cons, List.range_succ_eq_map, List.map_cons, List.map_map]
      have hcomp : ((fun k => g ((a :: t).getD k d)) ∘ Nat.succ) = fun k => g (t.getD k d) := by
        funext k
        simp
      rw [hcomp, ih]
      simp

/-! ## C1: zero total frequency -/

/-- C1 (amended): for a histogram whose keys all parse and whose total
frequency is zero, `_pauli_expval_with_variance` raises nothing: the numpy
float division `expvals /= denom` with `denom = 0` silently produces NaN
(modelled `none`) for every expectation value, and `1 - expvals ** 2`
propagates it to every variance. -/
theorem c1_zero_total_returns_nan (counts : List (List Char × ℕ))
    (paulis : List (List Bool × List Bool))
    (hparse : ∀ bf ∈ counts, (outcomeOf bf.1).isSome)
    (h0 : countsTotal counts = 0) :
    pauliExpvalWithVariance counts paulis =
      .ok (List.replicate paulis.length none, List.replicate paulis.length none) := by
  have hacc : expvalAccum (paulis2inds paulis) counts =
      .ok (0, fun k => signedSum counts ((paulis2inds paulis).getD k 0)) := by
    rw [expvalAccum, expvalAccumFrom_eq _ counts 0 (fun _ => 0) hparse]
    simp [h0]
  simp [pauliExpvalWithVariance, hacc, List.map_const']

/-- C1 counterexample to the claim as stated: an empty histogram (total
frequency 0) makes the estimator return normally, with NaN (`none`) in
place of every expectation value and variance — no computation error is
raised. -/
theorem c1_counterexample_silent_nan :
    pauliExpvalWithVariance [] [([false, true], [false, false])] = .ok ([none], [none]) := by
  decide

theorem c1_zero_total_returns_nan_witness :
    pauliExpvalWithVariance [([ '0' ], 0)] [([true], [false])] = .ok ([none], [none]) := by
  have h := c1_zero_total_returns_nan [([ '0' ], 0)] [([true], [false])] (by decide) (by decide)
  simpa using h

/-! ## C3: expectation formula, bound, and variance -/

theorem signedSum_abs_le (counts : List (List Char × ℕ)) (m : ℕ) :
    |signedSum counts m| ≤ (countsTotal counts : ℤ) := by
  induction counts with
  | nil => simp [signedSum, countsTotal]
  | cons bf rest ih =>
      simp only [signedSum, countsTotal, List.map_cons, List.sum_cons] at *
      have h1 : |(bf.2 : ℤ) * (-1) ^ popcount (m &&& ((outcomeOf bf.1).getD 0))| = (bf.2 : ℤ) := by
        rw [abs_mul, abs_pow, abs_neg, abs_one, one_pow, mul_one, Int.abs_natCast]
      have h2 := abs_add ((bf.2 : ℤ) * (-1) ^ popcount (m &&& ((outcomeOf bf.1).getD 0)))
        (signedSum rest m)
      rw [h1] at h2
      refine le_trans h2 ?_
      rw [Nat.cast_add]
      exact add_le_add_left ih _

theorem expval_div_bounds {S : ℤ} {T : ℕ} (hT : 0 < T) (hS : |S| ≤ (T : ℤ)) :
    -1 ≤ (S : ℚ) / (T : ℚ) ∧ (S : ℚ) / (T : ℚ) ≤ 1 := by
  have hT' : (0 : ℚ) < (T : ℚ) := by exact_mod_cast hT
  obtain ⟨h1, h2⟩ := abs_le.mp hS
  constructor
  · rw [le_div_iff hT']
    have h1' : (-(T : ℚ)) ≤ (S : ℚ) := by exact_mod_cast h1
    linarith
  · rw [div_le_one hT']
    exact_mod_cast h2

/-- C3: for a histogram with parseable keys and positive total frequency,
the estimator returns, for the Pauli with non-identity mask
`m = pauliInd z x`, exactly
`expectation = (Σ_b f_b · (-1)^popcount(m & b)) / (Σ_b f_b)`, this
expectation lies in `[-1, 1]`, and the returned variance is exactly
`1 - expectation²`. -/
theorem c3_expectation_variance_formula (counts : List (List Char × ℕ))
    (paulis : List (List Bool × List Bool))
    (hparse : ∀ bf ∈ counts, (outcomeOf bf.1).isSome)
    (hpos : 0 < countsTotal counts) :
    pauliExpvalWithVariance counts paulis =
      .ok (paulis.map fun zx =>
             some ((signedSum counts (pauliInd zx.1 zx.2) : ℚ) / (countsTotal counts : ℚ)),
           paulis.map fun zx =>
             some (1 - ((signedSum counts (pauliInd zx.1 zx.2) : ℚ) /
               (countsTotal counts : ℚ)) ^ 2)) ∧
      ∀ zx ∈ paulis,
        -1 ≤ (signedSum counts (pauliInd zx.1 zx.2) : ℚ) / (countsTotal counts : ℚ) ∧
        (signedSum counts (pauliInd zx.1 zx.2) : ℚ) / (countsTotal counts : ℚ) ≤ 1 := by
  have hacc : expvalAccum (paulis2inds paulis) counts =
      .ok (countsTotal counts, fun k => signedSum counts ((paulis2inds paulis).getD k 0)) := by
    rw [expvalAccum, expvalAccumFrom_eq _ counts 0 (fun _ => 0) hparse]
    simp
  have hT0 : countsTotal counts ≠ 0 := hpos.ne'
  constructor
  · simp only [pauliExpvalWithVariance, hacc, if_neg hT0]
    have hlen : paulis.length = (paulis2inds paulis).length := (List.length_map _ _).symm
    rw [hlen, range_map_getD (paulis2inds paulis) 0
      (fun m => some ((signedSum counts m : ℚ) / (countsTotal counts : ℚ)))]
    rw [paulis2inds, List.map_map, List.map_map]
    rfl
  · intro zx _
    exact expval_div_bounds hpos (signedSum_abs_le counts (pauliInd zx.1 zx.2))

theorem c3_expectation_variance_formula_witness :
    pauliExpvalWithVariance [([ '0' ], 700), ([ '1' ], 300)] [([true], [false])] =
      .ok ([some (2/5)], [some (21/25)]) := by
  have h := (c3_expectation_variance_formula [([ '0' ], 700), ([ '1' ], 300)]
    [([true], [false])] (by decide) (by decide)).1
  rw [h]
  have hs : signedSum [([ '0' ], 700), ([ '1' ], 300)] (pauliInd [true] [false]) = 400 := by
    decide
  have ht : countsTotal [([ '0' ], 700), ([ '1' ], 300)] = 1000 := by decide
  simp only [List.map_cons, List.map_nil]
  norm_num [hs, ht]

/-! ## C10: characters after the first space in a key are ignored -/

theorem takeWhile_eq_self_of_no_space :
    ∀ b : List Char, b.contains ' ' = false → b.takeWhile (fun c => c != ' ') = b := by
  intro b
  induction b with
  | nil => intro _; rfl
  | cons c t iht =>
      intro hb
      rw [List.contains_cons] at hb
      simp only [Bool.or_eq_false_iff] at hb
      have hc : (c != ' ') = true := by
        rw [bne_iff_ne]
        intro hcc
        exact absurd hcc.symm (by simpa using hb.1)
      rw [List.takeWhile_cons, hc]
      simp [iht hb.2]

theorem splitOutcome_eq_takeWhile (b : List Char) :
    splitOutcome b = b.takeWhile (fun c => c != ' ') := by
  rw [splitOutcome]
  by_cases hb : b.contains ' '
  · rw [if_pos hb]
  · rw [if_neg hb, takeWhile_eq_self_of_no_space b (by simpa using hb)]

theorem takeWhile_space_idem (b : List Char) :
    (b.takeWhile (fun c => c != ' ')).takeWhile (fun c => c != ' ') =
      b.takeWhile (fun c => c != ' ') := by
  induction b with
  | nil => rfl
  | cons c t iht =>
      rw [List.takeWhile_cons]
      cases hc : (c != ' ') with
      | false => rfl
      | true => simp [List.takeWhile_cons, hc, iht]

theorem outcomeOf_takeWhile (b : List Char) :
    outcomeOf (b.takeWhile (fun c => c != ' ')) = outcomeOf b := by
  rw [outcomeOf, outcomeOf, splitOutcome_eq_takeWhile, splitOutcome_eq_takeWhile,
    takeWhile_space_idem]

theorem takeWhile_append_space :
    ∀ (pre suf : List Char), ' ' ∉ pre →
      (pre ++ ' ' :: suf).takeWhile (fun c => c != ' ') = pre := by
  intro pre
  induction pre with
  | nil =>
      intro suf _
      simp [List.takeWhile_cons]
  | cons c t iht =>
      intro suf hmem
      rw [List.cons_append, List.takeWhile_cons]
      have hc : (c != ' ') = true := by
        rw [bne_iff_ne]
        intro h
        exact hmem (h ▸ List.mem_cons_self c t)
      rw [hc]
      simp only [if_pos]
      rw [iht suf (fun hsp => hmem (List.mem_cons_of_mem _ hsp))]

theorem expvalAccumFrom_truncKeys (inds : List ℕ) :
    ∀ (counts : List (List Char × ℕ)) (d0 : ℕ) (e0 : ℕ → ℤ),
      expvalAccumFrom inds d0 e0
          (counts.map fun bf => (bf.1.takeWhile (fun c => c != ' '), bf.2)) =
        expvalAccumFrom inds d0 e0 counts := by
  intro counts
  induction counts with
  | nil => intro d0 e0; rfl
  | cons bf rest ih =>
      intro d0 e0
      simp only [List.map_cons, expvalAccumFrom, outcomeOf_takeWhile bf.1]
      cases houtcome : outcomeOf bf.1 with
      | none => rfl
      | some o => exact ih _ _

/-- C10: the estimator parses only the substring of a histogram key before
the first space as the binary outcome (first conjunct), and everything after
the first space is ignored: truncating every key at its first space leaves
the result of `_pauli_expval_with_variance` unchanged (second conjunct). -/
theorem c10_key_space_prefix :
    (∀ pre suf : List Char, ' ' ∉ pre → splitOutcome (pre ++ ' ' :: suf) = pre) ∧
    (∀ (counts : List (List Char × ℕ)) (paulis : List (List Bool × List Bool)),
      pauliExpvalWithVariance
          (counts.map fun bf => (bf.1.takeWhile (fun c => c != ' '), bf.2)) paulis =
        pauliExpvalWithVariance counts paulis) := by
  constructor
  · intro pre suf hmem
    rw [splitOutcome_eq_takeWhile, takeWhile_append_space pre suf hmem]
  · intro counts paulis
    simp only [pauliExpvalWithVariance, expvalAccum, expvalAccumFrom_truncKeys]

theorem c10_key_space_prefix_witness :
    splitOutcome ([ '1', '0' ] ++ ' ' :: [ '1' ]) = [ '1', '0' ] :=
  c10_key_space_prefix.1 [ '1', '0' ] [ '1' ] (by decide)

/-! ## C2, C6, C7: postprocessing -/

theorem indicesOf_length : ∀ s : List ℕ, (indicesOf s).length = s.prod := by
  intro s
  induction s with
  | nil => rfl
  | cons d rest ih =>
      simp only [indicesOf, List.length_flatMap, List.prod_cons]
      have hfun : (List.length ∘ fun i : ℕ => List.map (fun x => i :: x) (indicesOf rest)) =
          fun _ : ℕ => rest.prod := by
        funext i
        simp [ih]
      rw [hfun, List.map_const', List.sum_replicate, List.length_range, smul_eq_mul]

theorem foldl_add_map_sum {α : Type} (f : α → ℚ) :
    ∀ (l : List α) (a : ℚ), l.foldl (fun acc x => acc + f x) a = a + (l.map f).sum := by
  intro l
  induction l with
  | nil => intro a; simp
  | cons x t ih => intro a; simp [ih, add_assoc]

theorem accumEvs_eq_sum (terms : List (List Char × PyComplex)) (ev : List Char → ℚ) :
    accumEvs terms ev = (terms.map fun pc => ev pc.1 * pc.2.re).sum := by
  rw [accumEvs, foldl_add_map_sum]
  exact zero_add _

theorem accumErr_eq_sum (sq : ℚ → ℚ) (terms : List (List Char × PyComplex))
    (var : List Char → ℚ) :
    accumErr sq terms var =
      (terms.map fun pc => sq (pc.2.re ^ 2 + pc.2.im ^ 2) * sq (var pc.1)).sum := by
  rw [accumErr, foldl_add_map_sum]
  exact zero_add _

/-- C7: the expectation-value and standard-error arrays returned by
`_postprocess_pub` have exactly the broadcast shape of the pub's parameter
bindings and observables (flattened length = product of the broadcast
shape). -/
theorem c7_output_broadcast_shape (sq : ℚ → ℚ) (paramShape obsShape : List ℕ)
    (obsGet : List ℕ → OperatorSum) (expvalMap : List ℕ → List Char → ℚ × ℚ)
    (shots : ℕ) (s : List ℕ) (h : broadcastShape paramShape obsShape = some s) :
    (postprocessPub sq paramShape obsShape obsGet expvalMap shots).map
        PostOutcome.shape = some s ∧
      (postprocessPub sq paramShape obsShape obsGet expvalMap shots).map
        (fun o => o.evs.length) = some s.prod ∧
      (postprocessPub sq paramShape obsShape obsGet expvalMap shots).map
        (fun o => o.stds.length) = some s.prod := by
  refine ⟨?_, ?_, ?_⟩ <;>
    simp [postprocessPub, h, indicesOf_length]

theorem c7_output_broadcast_shape_witness :
    (postprocessPub (fun q => q) [3] [1] (fun _ => OperatorSum.mk [])
        (fun _ _ => (0, 0)) 100).map PostOutcome.shape = some [3] ∧
      (postprocessPub (fun q => q) [3] [1] (fun _ => OperatorSum.mk [])
        (fun _ _ => (0, 0)) 100).map (fun o => o.evs.length) = some ([3] : List ℕ).prod ∧
      (postprocessPub (fun q => q) [3] [1] (fun _ => OperatorSum.mk [])
        (fun _ _ => (0, 0)) 100).map (fun o => o.stds.length) = some ([3] : List ℕ).prod :=
  c7_output_broadcast_shape (fun q => q) [3] [1] (fun _ => OperatorSum.mk [])
    (fun _ _ => (0, 0)) 100 [3] (by decide)

/-- C6 (amended): at every broadcast index, `_postprocess_pub` accumulates
into `evs` the real part of `coeff * expectation` for each
(label, coefficient) pair (the float-typed array keeps only the real part),
accumulates `|coeff| * sqrt(variance)` into the error accumulator, and
reports `std = err_accum / sqrt(shots)`. -/
theorem c6_accumulation_formula (sq : ℚ → ℚ) (paramShape obsShape : List ℕ)
    (obsGet : List ℕ → OperatorSum) (expvalMap : List ℕ → List Char → ℚ × ℚ)
    (shots : ℕ) (s : List ℕ) (h : broadcastShape paramShape obsShape = some s) :
    (postprocessPub sq paramShape obsShape obsGet expvalMap shots).map
        PostOutcome.evs =
      some ((indicesOf s).map fun idx =>
        ((obsGet (bcIndex obsShape idx)).terms.map fun pc =>
          (expvalMap (bcIndex paramShape idx) pc.1).1 * pc.2.re).sum) ∧
      (postprocessPub sq paramShape obsShape obsGet expvalMap shots).map
        PostOutcome.errAccum =
      some ((indicesOf s).map fun idx =>
        ((obsGet (bcIndex obsShape idx)).terms.map fun pc =>
          sq (pc.2.re ^ 2 + pc.2.im ^ 2) * sq ((expvalMap (bcIndex paramShape idx) pc.1).2)).sum) ∧
      (postprocessPub sq paramShape obsShape obsGet expvalMap shots).map
        PostOutcome.stds =
      some ((indicesOf s).map fun idx =>
        ((obsGet (bcIndex obsShape idx)).terms.map fun pc =>
          sq (pc.2.re ^ 2 + pc.2.im ^ 2) * sq ((expvalMap (bcIndex paramShape idx) pc.1).2)).sum /
            sq (shots : ℚ)) := by
  refine ⟨?_, ?_, ?_⟩ <;>
    simp [postprocessPub, h, accumEvs_eq_sum, accumErr_eq_sum, List.map_map, Function.comp]

theorem c6_accumulation_formula_witness :
    (postprocessPub (fun q => q) [] [] (fun _ => OperatorSum.mk [])
        (fun _ _ => (0, 0)) 9).map PostOutcome.evs =
      some ((indicesOf []).map fun idx =>
        (((fun _ : List ℕ => OperatorSum.mk []) (bcIndex [] idx)).terms.map fun pc =>
          (((fun _ : List ℕ => fun _ : List Char => ((0 : ℚ), (0 : ℚ)))
            (bcIndex [] idx)) pc.1).1 * pc.2.re).sum) :=
  (c6_accumulation_formula (fun q => q) [] [] (fun _ => OperatorSum.mk [])
    (fun _ _ => (0, 0)) 9 [] (by decide)).1

/-- C6 counterexample to the claim as stated: with the purely imaginary
coefficient `2j` and expectation value 3, the stored expectation value is
`0.0` (the float array keeps only the real part), while the claim's complex
accumulation `coeff * expectation` is `6j ≠ 0`. -/
theorem c6_counterexample_complex_coeff :
    (postprocessPub (fun q => q) [] [] (fun _ => OperatorSum.mk [([ 'X' ], ⟨0, 2⟩)])
        (fun _ _ => (3, 0)) 4).map PostOutcome.evs = some [0] ∧
      accumEvsSpec [([ 'X' ], ⟨0, 2⟩)] (fun _ => 3) = ⟨0, 6⟩ ∧
      (⟨0, 6⟩ : PyComplex) ≠ ⟨0, 0⟩ := by
  refine ⟨?_, ?_, ?_⟩
  · simp [postprocessPub, show broadcastShape ([] : List ℕ) [] = some [] from rfl,
      indicesOf, accumEvs, bcIndex]
  · simp only [accumEvsSpec, List.foldl_cons, List.foldl_nil]
    norm_num
  · intro hx
    rw [PyComplex.mk.injEq] at hx
    exact absurd hx.2 (by norm_num)

/-- C2: evaluation of the code at the failing input.  For the observable
`{"Z": 1j}` with measured expectation 1, `_postprocess_pub` stores `0.0`
into the float-typed `evs` array — the imaginary part of
`coeff * expectation = 1j` is discarded, not retained. -/
theorem c2_float_storage_drops_imaginary :
    (postprocessPub (fun q => q) [] [] (fun _ => OperatorSum.mk [([ 'Z' ], ⟨0, 1⟩)])
        (fun _ _ => (1, 0)) 16).map PostOutcome.evs = some [0] ∧
      accumEvsSpec [([ 'Z' ], ⟨0, 1⟩)] (fun _ => 1) = ⟨0, 1⟩ ∧
      (⟨0, 1⟩ : PyComplex) ≠ ⟨0, 0⟩ := by
  refine ⟨?_, ?_, ?_⟩
  · simp [postprocessPub, show broadcastShape ([] : List ℕ) [] = some [] from rfl,
      indicesOf, accumEvs, bcIndex]
  · simp only [accumEvsSpec, List.foldl_cons, List.foldl_nil]
    norm_num
  · intro hx
    rw [PyComplex.mk.injEq] at hx
    exact absurd hx.2 (by norm_num)

end BackendEstimatorV2
